import Mathlib

/-!
Verification of the note-selector widget's logical core (src/script.js).

The JavaScript source is shallowly embedded into Lean:

* JS numbers that are used as integer msat amounts become `ℕ` / `ℤ`;
  JS floating-point arithmetic on rates and quotients is modelled by
  exact rational arithmetic (`ℚ`).
* The JS `Set` of selected denominations becomes `Finset ℕ`: every
  observation the program makes of the set (membership, size, sum,
  numerically sorted export) is insertion-order independent.
* The nullable global `btcUsdRate` (null or a number) becomes `Option ℚ`.
* DOM side effects are modelled by the values the code writes to them
  (display strings, the toast message, the disabled flag); functions
  that mutate a global return the new value of that global.
* `Number.prototype.toPrecision(3)` is modelled by `toPrecision3`,
  implementing the ECMA-262 algorithm (3 significant digits, round half
  away from zero, exponential notation for decimal exponent ≥ 3 or < -6)
  over exact rationals.
* `parseFloat` is modelled by `parseFloat` below: skip leading
  whitespace, then the longest prefix of the form
  sign? digits? (. digits?)? (e|E sign? digits)? containing at least one
  mantissa digit, value `none` (JS `NaN`) when there is no such prefix.
-/

/-! ### Decimal digit strings -/

/-- One decimal digit as a character, `digitChar 3 = '3'`. -/
def digitChar (d : ℕ) : Char := Char.ofNat (48 + d)

/-- Little-endian decimal digits of `n`, with explicit fuel so that the
kernel can evaluate it (`natDigitsAux fuel n` is correct for `n ≤ fuel`). -/
def natDigitsAux : ℕ → ℕ → List ℕ
  | 0, _ => []
  | _ + 1, 0 => []
  | f + 1, n + 1 => ((n + 1) % 10) :: natDigitsAux f ((n + 1) / 10)

/-- Little-endian decimal digits of `n` (empty for 0). -/
def natDigits (n : ℕ) : List ℕ := natDigitsAux n n

/-- Number of decimal digits of `n` (0 for 0). -/
def numDigits (n : ℕ) : ℕ := (natDigits n).length

/-- Decimal rendering of a natural number, as JS renders integers. -/
def natToString (n : ℕ) : String :=
  if n = 0 then "0" else String.mk ((natDigits n).reverse.map digitChar)

/-! ### Constants of src/script.js -/

/-- `const MIN_DENOMINATION_MSAT = 2 ** 10` (1024 msat). -/
def MIN_DENOMINATION_MSAT : ℕ := 2 ^ 10

/-- `const MAX_SELECTIONS = 4`. -/
def MAX_SELECTIONS : ℕ := 4

/-- One entry of the `SI_PREFIXES` table: a display prefix string, a
multiplier and a unit symbol. -/
structure ScaleStep where
  prefixStr : String
  multiplier : ℕ
  symbol : String
deriving DecidableEq

/-- The fixed scale table `SI_PREFIXES` of src/script.js. -/
def SI_PREFIXES : List ScaleStep :=
  [⟨"", 1, "msat"⟩,
   ⟨"", 1000, "sat"⟩,
   ⟨"k", 1000000, "ksat"⟩,
   ⟨"M", 1000000000, "Msat"⟩,
   ⟨"G", 1000000000000, "Gsat"⟩,
   ⟨"T", 1000000000000000, "Tsat"⟩]

/-! ### `Number.prototype.toPrecision(3)` over exact rationals

The significand and decimal exponent are computed on an explicit
numerator/denominator pair in `ℕ` (Batteries marks the field operations
of `ℚ` `@[irreducible]`, so a pair keeps the function kernel-evaluable);
`toPrecision3` applies it to the canonical `num`/`den` of its input. -/

/-- The decimal exponent `e0` of the positive value `a / d` (both
nonzero): the unique `e0` with `10 ^ e0 ≤ a / d < 10 ^ (e0 + 1)`. -/
def decExpND (a d : ℕ) : ℤ :=
  if d ≤ a then (numDigits (a / d) : ℤ) - 1
  else
    if d ≤ a * 10 ^ (numDigits (d / a) - 1) then -((numDigits (d / a) : ℤ) - 1)
    else -(numDigits (d / a) : ℤ)

/-- ECMA-262 `toPrecision(3)` of the positive value `a / d`: pick the
3-digit significand `n` and exponent `e` (round half up, with the carry
`999.9… → 1.00e+k`), then render in fixed notation for `e ∈ [-6, 2]` and
in exponential notation (`"1.23e+3"`) otherwise. -/
def toPrecision3N (a d : ℕ) : String :=
  let e0 := decExpND a d
  let A := a * 10 ^ (2 - e0).toNat
  let B := d * 10 ^ (e0 - 2).toNat
  let n0 := (2 * A + B) / (2 * B)
  let ne : ℕ × ℤ := if n0 = 1000 then (100, e0 + 1) else (n0, e0)
  let x := ne.1 / 100
  let y := ne.1 / 10 % 10
  let z := ne.1 % 10
  if 3 ≤ ne.2 ∨ ne.2 < -6 then
    String.mk [digitChar x, '.', digitChar y, digitChar z, 'e'] ++
      (if 0 ≤ ne.2 then "+" else "-") ++ natToString ne.2.natAbs
  else if ne.2 = 0 then String.mk [digitChar x, '.', digitChar y, digitChar z]
  else if ne.2 = 1 then String.mk [digitChar x, digitChar y, '.', digitChar z]
  else if ne.2 = 2 then String.mk [digitChar x, digitChar y, digitChar z]
  else
    "0." ++ String.mk (List.replicate (ne.2.natAbs - 1) '0') ++
      String.mk [digitChar x, digitChar y, digitChar z]

/-- ECMA-262 `toPrecision(3)`: `0 ↦ "0.00"`, sign peeled off, positive
values rendered from the canonical numerator/denominator pair. -/
def toPrecision3 (q : ℚ) : String :=
  if q.num = 0 then "0.00"
  else if q.num < 0 then "-" ++ toPrecision3N q.num.natAbs q.den
  else toPrecision3N q.num.natAbs q.den

/-! ### `formatAmount` (src/script.js lines 42-57) -/

/-- The source's scan `for (let i = SI_PREFIXES.length - 1; i >= 0; i--)
... if (msat >= SI_PREFIXES[i].multiplier) break`: first entry of the
reversed table whose multiplier is below the amount. -/
def findScale (msat : ℕ) : List ScaleStep → Option ScaleStep
  | [] => none
  | p :: rest => if p.multiplier ≤ msat then some p else findScale msat rest

/-- The scale entry `formatAmount` picks: scan from the largest
multiplier down, defaulting to `SI_PREFIXES[0]` (the msat entry). -/
def chosenScale (msat : ℕ) : ScaleStep :=
  (findScale msat SI_PREFIXES.reverse).getD ⟨"", 1, "msat"⟩

/-- `formatAmount` of src/script.js: divide by the chosen multiplier
(`Rat.divInt` builds the exact quotient; `formatAmount_div` below states
it as a division in `ℚ`), render to 3 significant figures, append a
space and the unit symbol. -/
def formatAmount (msat : ℕ) : String :=
  toPrecision3 (Rat.divInt msat (chosenScale msat).multiplier) ++ " " ++
    (chosenScale msat).symbol

/-! ### `generateDenominations` (src/script.js lines 22-39) -/

/-- One generated denomination entry `{ value, display, power }`. -/
structure Denomination where
  value : ℕ
  display : String
  power : ℕ
deriving DecidableEq

/-- `generateDenominations` of src/script.js: one entry per exponent
`i ∈ [10, 29]`, with `value = 2 ^ i` and `display = formatAmount value`. -/
def generateDenominations : List Denomination :=
  (List.range' 10 20).map fun i => ⟨2 ^ i, formatAmount (2 ^ i), i⟩

/-! ### `msatToUsd` (src/script.js lines 60-70)

`if (!btcUsdRate) return null` is falsy both for `null` (`none`) and for
a stored rate of `0`; `100,000,000,000` msat make one BTC. -/

/-- `msatToUsd` of src/script.js, as a function of the `btcUsdRate`
global. -/
def msatToUsd (msat : ℤ) (btcUsdRate : Option ℚ) : Option ℚ :=
  match btcUsdRate with
  | none => none
  | some r => if r = 0 then none else some ((msat : ℚ) / 100000000000 * r)

/-! ### `parseFloat` -/

/-- The longest leading run of decimal digits, and the rest. -/
def takeDigits : List Char → List Char × List Char
  | [] => ([], [])
  | c :: cs =>
    if c.isDigit then
      let p := takeDigits cs
      (c :: p.1, p.2)
    else ([], c :: cs)

/-- The natural number a big-endian digit string denotes. -/
def natValD (d : List Char) : ℕ :=
  d.foldl (fun a c => 10 * a + (c.toNat - 48)) 0

/-- The mantissa parser: `digits? (. digits?)?` with at least one digit,
returning the value as a numerator/denominator pair `(M, D)` (value
`M / D`) and the unconsumed rest. -/
def parseMantissa (cs : List Char) : Option ((ℕ × ℕ) × List Char) :=
  let i := takeDigits cs
  if i.2.head? = some '.' then
    let f := takeDigits i.2.tail
    if i.1 = [] ∧ f.1 = [] then none
    else some ((natValD i.1 * 10 ^ f.1.length + natValD f.1, 10 ^ f.1.length), f.2)
  else if i.1 = [] then none
  else some ((natValD i.1, 1), i.2)

/-- The digit run of an exponent with its sign already read; with no
digit the whole exponent part is left unconsumed (`orig`), as
`parseFloat` does. -/
def parseExpDigits (sg : ℤ) (u orig : List Char) : ℤ × List Char :=
  if (takeDigits u).1 = [] then (0, orig)
  else (sg * (natValD (takeDigits u).1 : ℤ), (takeDigits u).2)

/-- After an `e`/`E` was seen: `sign? digits`. -/
def parseExpTail (r orig : List Char) : ℤ × List Char :=
  if r.head? = some '+' then parseExpDigits 1 r.tail orig
  else if r.head? = some '-' then parseExpDigits (-1) r.tail orig
  else parseExpDigits 1 r orig

/-- The optional exponent part `(e|E) sign? digits`. -/
def parseExp (cs : List Char) : ℤ × List Char :=
  if cs.head? = some 'e' ∨ cs.head? = some 'E' then parseExpTail cs.tail cs
  else (0, cs)

/-- Mantissa and optional exponent after the sign was read, the value
assembled exactly (`Rat.divInt`), with the unconsumed rest. -/
def parseAfterSign (sg : ℤ) (body : List Char) : Option (ℚ × List Char) :=
  match parseMantissa body with
  | none => none
  | some (md, r1) =>
    let er := parseExp r1
    some (Rat.divInt (sg * (md.1 : ℤ) * 10 ^ er.1.toNat)
            ((md.2 : ℤ) * 10 ^ (-er.1).toNat), er.2)

/-- One number, longest-prefix, as `parseFloat` reads it after skipping
whitespace: `sign? mantissa exponent?`. -/
def parseNum (cs : List Char) : Option (ℚ × List Char) :=
  if cs.head? = some '+' then parseAfterSign 1 cs.tail
  else if cs.head? = some '-' then parseAfterSign (-1) cs.tail
  else parseAfterSign 1 cs

/-- JS `parseFloat`: skip leading whitespace, parse the longest numeric
prefix, `none` for JS `NaN`. (The `Infinity` literal is outside the
numeric model; no caller of this program feeds it.) -/
def parseFloat (s : String) : Option ℚ :=
  (parseNum (s.data.dropWhile Char.isWhitespace)).map Prod.fst

/-! ### `updateBtcPriceFromInput` (src/script.js lines 99-107)

The JS function reads the text field, runs `parseFloat`, and writes the
`btcUsdRate` global only when the parse is a number `> 0`, refreshing
the totals in that case. The embedding returns the new value of the
global and whether the success branch (the write plus the
`updateTotal()` refresh) ran; the JS function itself returns nothing, so
success is observable only through that state change. -/

/-- `updateBtcPriceFromInput` of src/script.js, as a function of the
text-field content and the `btcUsdRate` global. -/
def updateBtcPriceFromInput (inputValue : String) (btcUsdRate : Option ℚ) :
    Option ℚ × Bool :=
  match parseFloat inputValue with
  | none => (btcUsdRate, false)
  | some newPrice =>
    if 0 < newPrice then (some newPrice, true) else (btcUsdRate, false)

/-! ### `fetchBtcPrice` (src/script.js lines 78-96)

The network interaction is modelled by the outcome the `try` block runs
into.  `data.prices['BTC/USD'].rate` throws before the assignment when
`prices` or `prices['BTC/USD']` is missing; when only the leaf `rate`
field is missing the assignment stores `undefined` and the later
`btcUsdRate.toFixed(2)` throws inside the `try` (with no `btcPrice`
element the guard skips it and `undefined` is returned) — either way the
global has already been overwritten. A numeric `rate` value is stored
unconditionally, with no sign check. Non-numeric `rate` values (strings,
objects) are outside this numeric model. -/

/-- What the `try` block of `fetchBtcPrice` runs into. -/
inductive FetchOutcome
  /-- `fetch` rejects or `response.json()` fails to parse. -/
  | networkOrParseError
  /-- `data.prices` or `data.prices['BTC/USD']` is absent: the member
  access throws before the assignment. -/
  | missingIntermediate
  /-- The path exists but its `rate` field is absent: `undefined` is
  assigned to the global. -/
  | missingRateField
  /-- The `rate` field holds the number `q`. -/
  | rateValue (q : ℚ)
deriving DecidableEq

/-- `fetchBtcPrice` of src/script.js: `(new btcUsdRate, return value)`,
where the return value is `none` for JS `null`/`undefined`. Every throw
inside the `try` is caught, so the function never throws past its
boundary. -/
def fetchBtcPrice (outcome : FetchOutcome) (btcUsdRate : Option ℚ) :
    Option ℚ × Option ℚ :=
  match outcome with
  | .networkOrParseError => (btcUsdRate, none)
  | .missingIntermediate => (btcUsdRate, none)
  | .missingRateField => (none, none)
  | .rateValue q => (some q, some q)

/-- One write to the `btcUsdRate` global: a remote fetch or a manual
entry. -/
inductive RateOp
  | fetch (outcome : FetchOutcome)
  | manual (text : String)

/-- The new value of the `btcUsdRate` global after one operation. -/
def applyRateOp (r : Option ℚ) : RateOp → Option ℚ
  | .fetch o => (fetchBtcPrice o r).1
  | .manual s => (updateBtcPriceFromInput s r).1

/-- The spec's `ExchangeRate` data-model invariant: the stored rate is
absent or strictly positive. -/
def RateInv : Option ℚ → Prop
  | none => True
  | some q => 0 < q

/-! ### Selection manager (src/script.js lines 141-160 and 163-200)

`selectedDenominations` is a JS `Set` of numbers; every observation the
program makes of it (`has`, `size`, sum, numeric ascending sort) ignores
insertion order, so it is embedded as a `Finset ℕ`. -/

/-- `toggleDenomination` of src/script.js: `(new selection, toast)`. The
toast is the warning `showToast` surfaces when a fifth distinct value is
rejected. -/
def toggleDenomination (value : ℕ) (sel : Finset ℕ) :
    Finset ℕ × Option String :=
  if value ∈ sel then (sel.erase value, none)
  else if MAX_SELECTIONS ≤ sel.card then
    (sel, some ("You can only select up to 4 denominations."))
  else (insert value sel, none)

/-- A sequence of toggle clicks applied in order. -/
def applyToggles (ops : List ℕ) (init : Finset ℕ) : Finset ℕ :=
  ops.foldl (fun s v => (toggleDenomination v s).1) init

/-- `totalAmount` as `updateTotal` recomputes it: the sum of the
selected values. -/
def totalOf (sel : Finset ℕ) : ℕ := sel.sum id

/-- The ascending sort `Array.from(selectedDenominations).sort((a, b) =>
a - b)` that `updateTotal` builds for the export box: an insertion sort
of the members, lifted over the iteration order (sorting any two
enumerations of the set gives the same list). -/
def sortedValues (sel : Finset ℕ) : List ℕ :=
  Quotient.liftOn sel.val (fun l => List.insertionSort (· ≤ ·) l)
    fun _ _ h =>
      List.eq_of_perm_of_sorted
        ((List.perm_insertionSort _ _).trans
          (h.trans (List.perm_insertionSort _ _).symm))
        (List.sorted_insertionSort _ _) (List.sorted_insertionSort _ _)

/-- The `msatValues` text-box content `updateTotal` writes: empty for an
empty selection, otherwise the sorted values joined by commas. -/
def msatValuesText (sel : Finset ℕ) : String :=
  if sel.card = 0 then ""
  else String.intercalate "," ((sortedValues sel).map natToString)

/-- The `msatValues` placeholder `updateTotal` writes: the explicit
no-selection indicator for an empty selection. -/
def msatPlaceholder (sel : Finset ℕ) : String :=
  if sel.card = 0 then "No denominations selected" else ""

/-- The copy button's `disabled` flag as `updateTotal` sets it. -/
def copyDisabled (sel : Finset ℕ) : Bool := sel.card = 0

/-! ### Selection-limit invariant (C1) -/

/-- One toggle keeps the selection within the `MAX_SELECTIONS` bound. -/
lemma toggle_card_le (v : ℕ) (sel : Finset ℕ) (h : sel.card ≤ MAX_SELECTIONS) :
    ((toggleDenomination v sel).1).card ≤ MAX_SELECTIONS := by
  unfold toggleDenomination
  split_ifs with h1 h2
  · exact le_trans (Finset.card_erase_le) h
  · exact h
  · have h3 := Finset.card_insert_le v sel
    show (insert v sel).card ≤ MAX_SELECTIONS
    unfold MAX_SELECTIONS at *
    omega

/-- Any toggle sequence keeps the selection within the bound. -/
lemma applyToggles_card_le (ops : List ℕ) :
    ∀ sel : Finset ℕ, sel.card ≤ MAX_SELECTIONS →
      (applyToggles ops sel).card ≤ MAX_SELECTIONS := by
  induction ops with
  | nil => exact fun sel h => h
  | cons v t ih =>
    intro sel h
    simpa [applyToggles] using ih _ (toggle_card_le v sel h)

/-- C1: starting from the empty selection, no toggle sequence pushes the
selection size past N = 4; and toggling a non-member while the size is 4
is rejected with the limit warning, leaving the selection — and with it
its total and its export text — exactly unchanged. -/
theorem C1_selection_limit (ops : List ℕ) (v : ℕ) (sel : Finset ℕ) :
    (applyToggles ops ∅).card ≤ 4
    ∧ (sel.card = 4 → v ∉ sel →
        toggleDenomination v sel =
          (sel, some ("You can only select up to 4 denominations."))
        ∧ totalOf (toggleDenomination v sel).1 = totalOf sel
        ∧ msatValuesText (toggleDenomination v sel).1 = msatValuesText sel) := by
  constructor
  · simpa [MAX_SELECTIONS] using
      applyToggles_card_le ops ∅ (by simp [MAX_SELECTIONS])
  · intro hcard hv
    have ht : toggleDenomination v sel =
        (sel, some ("You can only select up to 4 denominations.")) := by
      unfold toggleDenomination
      rw [if_neg hv, if_pos (by unfold MAX_SELECTIONS; omega)]
    exact ⟨ht, by rw [ht], by rw [ht]⟩

/-- C1 witness: five distinct clicks leave four selected, and the fifth
click on a full selection is rejected with the warning. -/
theorem C1_selection_limit_witness :
    (applyToggles [1024, 2048, 4096, 8192, 16384] ∅).card ≤ 4
    ∧ toggleDenomination 16384 {1024, 2048, 4096, 8192} =
        ({1024, 2048, 4096, 8192},
          some ("You can only select up to 4 denominations.")) := by
  have h := C1_selection_limit [1024, 2048, 4096, 8192, 16384] 16384
    {1024, 2048, 4096, 8192}
  exact ⟨h.1, (h.2 (by decide) (by decide)).1⟩

/-! ### Toggle is an involution (C8) -/

/-- C8: toggling the same value twice, with neither call rejected by the
size limit, restores the selection exactly. -/
theorem C8_toggle_involution (sel : Finset ℕ) (v : ℕ)
    (h1 : (toggleDenomination v sel).2 = none)
    (h2 : (toggleDenomination v (toggleDenomination v sel).1).2 = none) :
    (toggleDenomination v (toggleDenomination v sel).1).1 = sel := by
  by_cases hv : v ∈ sel
  · have e1 : toggleDenomination v sel = (sel.erase v, none) := by
      unfold toggleDenomination; rw [if_pos hv]
    rw [e1] at h2 ⊢
    have hv2 : v ∉ sel.erase v := Finset.not_mem_erase v sel
    unfold toggleDenomination at h2 ⊢
    rw [if_neg hv2] at h2 ⊢
    by_cases hc : MAX_SELECTIONS ≤ (sel.erase v).card
    · rw [if_pos hc] at h2; simp at h2
    · rw [if_neg hc]; simpa using Finset.insert_erase hv
  · unfold toggleDenomination at h1
    rw [if_neg hv] at h1
    by_cases hc : MAX_SELECTIONS ≤ sel.card
    · rw [if_pos hc] at h1; simp at h1
    · have e1 : toggleDenomination v sel = (insert v sel, none) := by
        unfold toggleDenomination; rw [if_neg hv, if_neg hc]
      rw [e1]
      have hv2 : v ∈ insert v sel := Finset.mem_insert_self v sel
      unfold toggleDenomination
      rw [if_pos hv2]
      simpa using Finset.erase_insert hv

/-- C8 witness: toggling 1024 twice from the empty selection returns the
empty selection. -/
theorem C8_toggle_involution_witness :
    (toggleDenomination 1024 (toggleDenomination 1024 ∅).1).1 = ∅ :=
  C8_toggle_involution ∅ 1024 (by decide) (by decide)

/-! ### Manual rate entry (C3) -/

/-- C3: the manual rate setter parses the field text with `parseFloat`;
a failed parse or a non-positive value leaves the rate unchanged and
reports failure (the success branch does not run), a positive value
replaces the rate and reports success. -/
theorem C3_manual_rate (s : String) (r : Option ℚ) :
    (parseFloat s = none → updateBtcPriceFromInput s r = (r, false))
    ∧ (∀ q : ℚ, parseFloat s = some q → q ≤ 0 →
        updateBtcPriceFromInput s r = (r, false))
    ∧ (∀ q : ℚ, parseFloat s = some q → 0 < q →
        updateBtcPriceFromInput s r = (some q, true)) := by
  refine ⟨fun h => ?_, fun q h hq => ?_, fun q h hq => ?_⟩
  · simp [updateBtcPriceFromInput, h]
  · simp [updateBtcPriceFromInput, h, not_lt.mpr hq]
  · simp [updateBtcPriceFromInput, h, hq]

/-- C3 witness: "45000" replaces a prior rate of 7 and reports success;
"abc" leaves it untouched and reports failure. -/
theorem C3_manual_rate_witness :
    updateBtcPriceFromInput "45000" (some 7) = (some 45000, true)
    ∧ updateBtcPriceFromInput "abc" (some 7) = (some 7, false) :=
  ⟨(C3_manual_rate "45000" (some 7)).2.2 45000 (by decide) (by decide),
   (C3_manual_rate "abc" (some 7)).1 (by decide)⟩

/-! ### Fiat conversion (C7) -/

/-- C7: with the rate absent the conversion is absent for every integer
amount; with a (positive, per the data model) rate present it is the
amount over the fixed 100,000,000,000 msat-per-BTC constant, times the
rate. -/
theorem C7_toFiat (msat : ℤ) :
    msatToUsd msat none = none
    ∧ ∀ r : ℚ, 0 < r →
        msatToUsd msat (some r) = some ((msat : ℚ) / 100000000000 * r) := by
  refine ⟨rfl, fun r hr => ?_⟩
  simp [msatToUsd, hr.ne']

/-- C7 witness at amount 0 and at amount 7 with rate 45000. -/
theorem C7_toFiat_witness :
    msatToUsd 0 none = none
    ∧ msatToUsd 7 (some 45000) = some ((7 : ℚ) / 100000000000 * 45000) :=
  ⟨(C7_toFiat 0).1, (C7_toFiat 7).2 45000 (by norm_num)⟩

/-! ### The denomination catalog (C5) -/

/-- C5: the catalog has exactly 20 entries, one per exponent in [10, 29]
in increasing order; each entry's value is `2 ^ exponent` with the
display computed by `formatAmount`, and the values strictly increase. -/
theorem C5_catalog :
    generateDenominations.length = 20
    ∧ generateDenominations.map Denomination.power = List.range' 10 20
    ∧ (generateDenominations.all fun d =>
        (d.value == 2 ^ d.power) && (d.display == formatAmount d.value)) = true
    ∧ ((generateDenominations.map Denomination.value).zip
        (generateDenominations.map Denomination.value).tail).all
        (fun p => decide (p.1 < p.2)) = true :=
  ⟨by decide, by decide, by decide, by decide⟩

/-! ### Scale selection and rendering (C6) -/

/-- The scan of the scale table, unfolded into its interval cases. -/
lemma chosenScale_cases (msat : ℕ) :
    chosenScale msat =
      if 1000000000000000 ≤ msat then ⟨"T", 1000000000000000, "Tsat"⟩
      else if 1000000000000 ≤ msat then ⟨"G", 1000000000000, "Gsat"⟩
      else if 1000000000 ≤ msat then ⟨"M", 1000000000, "Msat"⟩
      else if 1000000 ≤ msat then ⟨"k", 1000000, "ksat"⟩
      else if 1000 ≤ msat then ⟨"", 1000, "sat"⟩
      else ⟨"", 1, "msat"⟩ := by
  have hrev : SI_PREFIXES.reverse =
      [⟨"T", 1000000000000000, "Tsat"⟩, ⟨"G", 1000000000000, "Gsat"⟩,
       ⟨"M", 1000000000, "Msat"⟩, ⟨"k", 1000000, "ksat"⟩,
       ⟨"", 1000, "sat"⟩, ⟨"", 1, "msat"⟩] := rfl
  unfold chosenScale
  rw [hrev]
  dsimp only [findScale]
  split_ifs <;> rfl

/-- C6: `formatAmount` picks the table entry with the largest multiplier
below the amount (the msat entry when the amount, 0 included, is below
every multiplier), divides the amount by it, renders the quotient to 3
significant figures and appends a space and the unit symbol; at the sat
boundary `formatAmount 1024 = "1.02 sat"`. -/
theorem C6_formatAmount (msat : ℕ) :
    chosenScale msat ∈ SI_PREFIXES
    ∧ (∀ p ∈ SI_PREFIXES, p.multiplier ≤ msat →
        p.multiplier ≤ (chosenScale msat).multiplier)
    ∧ ((∀ p ∈ SI_PREFIXES, msat < p.multiplier) →
        chosenScale msat = ⟨"", 1, "msat"⟩)
    ∧ (1 ≤ msat → (chosenScale msat).multiplier ≤ msat)
    ∧ formatAmount msat =
        toPrecision3 ((msat : ℚ) / ((chosenScale msat).multiplier : ℚ)) ++
          " " ++ (chosenScale msat).symbol
    ∧ formatAmount 1024 = "1.02 sat" := by
  have hdiv : formatAmount msat =
      toPrecision3 ((msat : ℚ) / ((chosenScale msat).multiplier : ℚ)) ++
        " " ++ (chosenScale msat).symbol := by
    unfold formatAmount
    rw [Rat.divInt_eq_div]
    push_cast
    rfl
  refine ⟨?_, ?_, ?_, ?_, hdiv, by decide⟩
  · rw [chosenScale_cases]
    split_ifs <;> decide
  · intro p hp hle
    have hp6 : p = ⟨"", 1, "msat"⟩ ∨ p = ⟨"", 1000, "sat"⟩
        ∨ p = ⟨"k", 1000000, "ksat"⟩ ∨ p = ⟨"M", 1000000000, "Msat"⟩
        ∨ p = ⟨"G", 1000000000000, "Gsat"⟩
        ∨ p = ⟨"T", 1000000000000000, "Tsat"⟩ := by
      simpa [SI_PREFIXES] using hp
    rw [chosenScale_cases]
    split_ifs with h1 h2 h3 h4 h5 <;>
      rcases hp6 with rfl | rfl | rfl | rfl | rfl | rfl <;>
      dsimp only at hle ⊢ <;> omega
  · intro hall
    have h1 := hall ⟨"", 1, "msat"⟩ (by decide)
    dsimp only at h1
    rw [chosenScale_cases]
    split_ifs <;> first | rfl | omega
  · intro h1m
    rw [chosenScale_cases]
    split_ifs with h1 h2 h3 h4 h5 <;> dsimp only <;> omega

/-- C6 witness at the sat boundary amount 1024. -/
theorem C6_formatAmount_witness :
    (chosenScale 1024).multiplier ≤ 1024 ∧ formatAmount 1024 = "1.02 sat" :=
  ⟨(C6_formatAmount 1024).2.2.2.1 (by decide),
   (C6_formatAmount 1024).2.2.2.2.2⟩

/-! ### The sorted export (C9) -/

/-- The export sort is ascending. -/
lemma sortedValues_sorted (sel : Finset ℕ) :
    List.Sorted (· ≤ ·) (sortedValues sel) := by
  unfold sortedValues
  exact Quotient.inductionOn sel.val fun l => List.sorted_insertionSort _ l

/-- The export sort enumerates exactly the members. -/
lemma mem_sortedValues (sel : Finset ℕ) (x : ℕ) :
    x ∈ sortedValues sel ↔ x ∈ sel := by
  rw [Finset.mem_def]
  unfold sortedValues
  exact Quotient.inductionOn sel.val fun l =>
    Iff.trans ((List.perm_insertionSort (· ≤ ·) l).mem_iff (a := x))
      (Multiset.mem_coe).symm

/-- Two toggle-adds from the empty selection commute. -/
lemma toggles_pair_comm (a b : ℕ) :
    applyToggles [a, b] ∅ = applyToggles [b, a] ∅ := by
  by_cases hab : a = b
  · subst hab; rfl
  · simp [applyToggles, toggleDenomination, MAX_SELECTIONS, hab, Ne.symm hab]
    exact Finset.Insert.comm b a ∅

/-- C9: for a non-empty selection the export box holds the members in
ascending numeric order joined by commas, whatever the insertion order;
for the empty selection the box is cleared and the user is shown the
explicit no-selection placeholder with the copy action disabled. -/
theorem C9_sorted_export (sel : Finset ℕ) (a b : ℕ) :
    (sel ≠ ∅ → msatValuesText sel =
      String.intercalate "," ((sortedValues sel).map natToString))
    ∧ List.Sorted (· ≤ ·) (sortedValues sel)
    ∧ (∀ x : ℕ, x ∈ sortedValues sel ↔ x ∈ sel)
    ∧ applyToggles [a, b] ∅ = applyToggles [b, a] ∅
    ∧ (sel = ∅ →
        msatValuesText sel = ""
        ∧ msatPlaceholder sel = "No denominations selected"
        ∧ copyDisabled sel = true) := by
  refine ⟨fun h => ?_, sortedValues_sorted sel, mem_sortedValues sel,
    toggles_pair_comm a b, fun h => ?_⟩
  · rw [msatValuesText, if_neg (by simpa [Finset.card_eq_zero] using h)]
  · subst h
    refine ⟨rfl, rfl, rfl⟩

/-- C9 witness: the selection `{2^15, 2^10}` exports ascending whichever
way it was clicked together. -/
theorem C9_sorted_export_witness :
    msatValuesText ({32768, 1024} : Finset ℕ) =
      String.intercalate ","
        ((sortedValues ({32768, 1024} : Finset ℕ)).map natToString)
    ∧ msatValuesText ({32768, 1024} : Finset ℕ) = "1024,32768"
    ∧ applyToggles [32768, 1024] ∅ = applyToggles [1024, 32768] ∅ :=
  ⟨(C9_sorted_export {32768, 1024} 32768 1024).1 (by decide), by decide,
   (C9_sorted_export ∅ 32768 1024).2.2.2.1⟩

/-! ### Fetch failure handling (C2) -/

/-- C2 counterexample: a response whose `prices['BTC/USD']` object exists
but lacks the `rate` field is a failure outcome (the fetch returns
absent), yet it does not leave the stored rate of 45000 unchanged — the
global was already overwritten with `undefined`. -/
theorem C2_missing_leaf_clears_rate :
    fetchBtcPrice FetchOutcome.missingRateField (some 45000) = (none, none)
    ∧ (fetchBtcPrice FetchOutcome.missingRateField (some 45000)).1 ≠
        some 45000 :=
  ⟨rfl, by decide⟩

/-- C2 (amended): `fetchBtcPrice` returns absent and never throws for
every failure outcome; a network error, an unparseable body or a missing
intermediate object on the field path leaves the stored rate unchanged,
while a missing leaf `rate` field overwrites the stored rate with
absent; a response carrying the numeric field stores that number. -/
theorem C2_fetch_failures (r : Option ℚ) :
    fetchBtcPrice FetchOutcome.networkOrParseError r = (r, none)
    ∧ fetchBtcPrice FetchOutcome.missingIntermediate r = (r, none)
    ∧ fetchBtcPrice FetchOutcome.missingRateField r = (none, none)
    ∧ ∀ q : ℚ, fetchBtcPrice (FetchOutcome.rateValue q) r = (some q, some q) :=
  ⟨rfl, rfl, rfl, fun _ => rfl⟩

/-! ### The rate positivity invariant (C4) -/

/-- C4 counterexample: one remote fetch whose response carries the
numeric rate -5 is stored as-is, so the reachable state `some (-5)`
violates the absent-or-positive invariant. -/
theorem C4_negative_rate_reachable :
    [RateOp.fetch (FetchOutcome.rateValue (-5))].foldl applyRateOp none =
      some (-5)
    ∧ ¬ RateInv (some (-5) : Option ℚ) :=
  ⟨rfl, by norm_num [RateInv]⟩

/-- One rate operation preserves the invariant, provided a fetched
numeric rate is positive. -/
lemma rateOp_preserves (r : Option ℚ) (op : RateOp) (hr : RateInv r)
    (hop : ∀ q : ℚ, op = RateOp.fetch (FetchOutcome.rateValue q) → 0 < q) :
    RateInv (applyRateOp r op) := by
  cases op with
  | fetch o =>
    cases o with
    | networkOrParseError => exact hr
    | missingIntermediate => exact hr
    | missingRateField => trivial
    | rateValue q => exact hop q rfl
  | manual s =>
    show RateInv (updateBtcPriceFromInput s r).1
    unfold updateBtcPriceFromInput
    cases h : parseFloat s with
    | none => exact hr
    | some q =>
      by_cases hq : 0 < q
      · simp [hq, RateInv]
      · simpa [hq] using hr

/-- C4 (amended): under any interleaving of remote fetches and manual
entries, the stored rate stays absent or strictly positive, provided
every fetch outcome that carries a numeric rate carries a positive one
(the code itself never checks the fetched value, see the
counterexample). -/
theorem C4_rate_invariant (ops : List RateOp)
    (h : ∀ op ∈ ops, ∀ q : ℚ,
      op = RateOp.fetch (FetchOutcome.rateValue q) → 0 < q) :
    RateInv (ops.foldl applyRateOp none) := by
  have H : ∀ (l : List RateOp) (r : Option ℚ), RateInv r →
      (∀ op ∈ l, ∀ q : ℚ,
        op = RateOp.fetch (FetchOutcome.rateValue q) → 0 < q) →
      RateInv (l.foldl applyRateOp r) := by
    intro l
    induction l with
    | nil => exact fun r hr _ => hr
    | cons op t ih =>
      intro r hr hl
      simp only [List.foldl_cons]
      exact ih _ (rateOp_preserves r op hr (hl op (by simp)))
        fun o ho q e => hl o (by simp [ho]) q e
  exact H ops none trivial h

/-- C4 witness: a positive fetch followed by a rejected manual entry
keeps the invariant. -/
theorem C4_rate_invariant_witness :
    RateInv ([RateOp.fetch (FetchOutcome.rateValue 5),
              RateOp.manual "abc"].foldl applyRateOp none) := by
  apply C4_rate_invariant
  intro op hop q he
  simp only [List.mem_cons, List.not_mem_nil, or_false] at hop
  rcases hop with rfl | rfl
  · cases he; norm_num
  · exact absurd he (by simp)

/-! ### Longest-prefix behaviour of `parseFloat` (C10) -/

/-- A run of digits followed by a non-digit is split exactly there. -/
lemma takeDigits_append_digits (d : List Char) (c : Char) (t : List Char)
    (hd : ∀ x ∈ d, x.isDigit = true) (hc : c.isDigit = false) :
    takeDigits (d ++ c :: t) = (d, c :: t) := by
  induction d with
  | nil => simp [takeDigits, hc]
  | cons x d ih =>
    have hx : x.isDigit = true := hd x (List.mem_cons_self x d)
    have ih2 := ih fun y hy => hd y (List.mem_cons_of_mem x hy)
    simp [takeDigits, hx, ih2]

/-- `takeDigits` splits its input. -/
lemma takeDigits_recover (l : List Char) :
    (takeDigits l).1 ++ (takeDigits l).2 = l := by
  induction l with
  | nil => rfl
  | cons x t ih =>
    cases hx : x.isDigit with
    | true => simp [takeDigits, hx, ih]
    | false => simp [takeDigits, hx]

/-- Everything in the digit run is a digit. -/
lemma takeDigits_fst_digits (l : List Char) :
    ∀ x ∈ (takeDigits l).1, x.isDigit = true := by
  induction l with
  | nil => simp [takeDigits]
  | cons y t ih =>
    cases hy : y.isDigit with
    | false => simp [takeDigits, hy]
    | true =>
      intro x hx
      simp only [takeDigits, hy, if_true] at hx
      rcases List.mem_cons.1 hx with rfl | hx2
      · exact hy
      · exact ih x hx2

/-- The rest starts with a non-digit when it is non-empty. -/
lemma takeDigits_snd_head (l : List Char) (c : Char) (r : List Char)
    (h : (takeDigits l).2 = c :: r) : c.isDigit = false := by
  induction l with
  | nil => simp [takeDigits] at h
  | cons y t ih =>
    cases hy : y.isDigit with
    | true =>
      simp only [takeDigits, hy, if_true] at h
      exact ih h
    | false =>
      simp only [takeDigits, hy, Bool.false_eq_true, if_false] at h
      rcases h with ⟨rfl, rfl⟩
      exact hy

/-- When the rest is empty the whole input was the digit run. -/
lemma takeDigits_full (l : List Char) (h : (takeDigits l).2 = []) :
    (takeDigits l).1 = l := by
  have h2 := takeDigits_recover l
  rw [h] at h2
  simpa using h2

/-- Appending past a fully-consumed digit run restarts at the appended
non-digit. -/
lemma takeDigits_append_full (l : List Char) (c : Char) (t : List Char)
    (h : (takeDigits l).2 = []) (hc : c.isDigit = false) :
    takeDigits (l ++ c :: t) = ((takeDigits l).1, c :: t) := by
  have h1 : (takeDigits l).1 = l := takeDigits_full l h
  calc takeDigits (l ++ c :: t)
      = takeDigits ((takeDigits l).1 ++ c :: t) := by rw [h1]
    _ = ((takeDigits l).1, c :: t) :=
        takeDigits_append_digits _ c t (takeDigits_fst_digits l) hc

/-- Appending after the digit run already stopped does not move the
split point. -/
lemma takeDigits_append_stop (l s : List Char) (x : Char) (r : List Char)
    (h : (takeDigits l).2 = x :: r) :
    takeDigits (l ++ s) = ((takeDigits l).1, x :: (r ++ s)) := by
  have hx : x.isDigit = false := takeDigits_snd_head l x r h
  have hdig := takeDigits_fst_digits l
  have hrec := takeDigits_recover l
  rw [h] at hrec
  calc takeDigits (l ++ s)
      = takeDigits ((takeDigits l).1 ++ x :: (r ++ s)) := by
        conv_lhs => rw [← hrec]
        simp
    _ = ((takeDigits l).1, x :: (r ++ s)) :=
        takeDigits_append_digits _ x (r ++ s) hdig hx

/-- A fully-consumed mantissa followed by a blocking character parses
to the same value with the new character unconsumed. -/
lemma parseMantissa_append_full (cs : List Char) (md : ℕ × ℕ) (c : Char)
    (t : List Char) (h : parseMantissa cs = some (md, []))
    (hc : c.isDigit = false) (hdot : c ≠ '.') :
    parseMantissa (cs ++ c :: t) = some (md, c :: t) := by
  unfold parseMantissa at h ⊢
  by_cases hdot1 : (takeDigits cs).2.head? = some ('.')
  · -- the original parse took the dot branch
    obtain ⟨rr, hrr⟩ : ∃ rr, (takeDigits cs).2 = '.' :: rr := by
      cases h2 : (takeDigits cs).2 with
      | nil => rw [h2] at hdot1; simp at hdot1
      | cons a b =>
        rw [h2] at hdot1
        simp only [List.head?_cons, Option.some.injEq] at hdot1
        exact ⟨b, by rw [hdot1]⟩
    rw [if_pos hdot1] at h
    rw [hrr] at h
    simp only [List.tail_cons] at h
    split_ifs at h with hg
    simp only [Option.some.injEq, Prod.mk.injEq] at h
    obtain ⟨hval, hf2⟩ := h
    have hstop := takeDigits_append_stop cs (c :: t) '.' rr hrr
    rw [hstop]
    simp only [List.head?_cons, reduceIte, List.tail_cons]
    have hfull := takeDigits_append_full rr c t hf2 hc
    rw [hfull]
    simp only [if_neg hg, Option.some.injEq, Prod.mk.injEq]
    exact ⟨hval, trivial⟩
  · -- the original parse took the plain-digits branch
    rw [if_neg hdot1] at h
    split_ifs at h with hg
    simp only [Option.some.injEq, Prod.mk.injEq] at h
    obtain ⟨hval, hi2⟩ := h
    have hfull := takeDigits_append_full cs c t hi2 hc
    rw [hfull]
    have hcdot : ¬ ((c :: t).head? = some ('.')) := by
      simp [hdot]
    rw [if_neg hcdot, if_neg hg]
    simp only [Option.some.injEq, Prod.mk.injEq]
    exact ⟨hval, trivial⟩

/-- A mantissa that already stopped parses identically under any
appended suffix. -/
lemma parseMantissa_append_stop (cs s : List Char) (md : ℕ × ℕ) (x : Char)
    (r : List Char) (h : parseMantissa cs = some (md, x :: r)) :
    parseMantissa (cs ++ s) = some (md, x :: (r ++ s)) := by
  unfold parseMantissa at h ⊢
  by_cases hdot1 : (takeDigits cs).2.head? = some ('.')
  · obtain ⟨rr, hrr⟩ : ∃ rr, (takeDigits cs).2 = '.' :: rr := by
      cases h2 : (takeDigits cs).2 with
      | nil => rw [h2] at hdot1; simp at hdot1
      | cons a b =>
        rw [h2] at hdot1
        simp only [List.head?_cons, Option.some.injEq] at hdot1
        exact ⟨b, by rw [hdot1]⟩
    rw [if_pos hdot1] at h
    rw [hrr] at h
    simp only [List.tail_cons] at h
    split_ifs at h with hg
    simp only [Option.some.injEq, Prod.mk.injEq] at h
    obtain ⟨hval, hf2⟩ := h
    have hstop := takeDigits_append_stop cs s '.' rr hrr
    rw [hstop]
    simp only [List.head?_cons, reduceIte, List.tail_cons]
    have hstop2 := takeDigits_append_stop rr s x r hf2
    rw [hstop2]
    simp only [if_neg hg, Option.some.injEq, Prod.mk.injEq]
    exact ⟨hval, trivial⟩
  · rw [if_neg hdot1] at h
    split_ifs at h with hg
    simp only [Option.some.injEq, Prod.mk.injEq] at h
    obtain ⟨hval, hi2⟩ := h
    have hstop := takeDigits_append_stop cs s x r hi2
    rw [hstop]
    have hxdot : x ≠ '.' := by
      intro hx
      rw [hi2, hx] at hdot1
      simp at hdot1
    have hcdot : ¬ ((x :: (r ++ s)).head? = some ('.')) := by
      simp [hxdot]
    rw [if_neg hcdot, if_neg hg]
    simp only [Option.some.injEq, Prod.mk.injEq]
    exact ⟨hval, trivial⟩

/-- The empty rest carries no exponent. -/
lemma parseExp_nil : parseExp [] = (0, []) := by
  simp [parseExp]

/-- A rest that does not start with `e`/`E` carries no exponent. -/
lemma parseExp_not_e (c : Char) (t : List Char) (he : c ≠ 'e')
    (hE : c ≠ 'E') : parseExp (c :: t) = (0, c :: t) := by
  simp [parseExp, he, hE]

/-- A fully-consumed exponent digit run followed by a blocking character
parses to the same exponent with the new character unconsumed. -/
lemma parseExpDigits_append_full (sg : ℤ) (u orig : List Char) (e : ℤ)
    (c : Char) (t : List Char) (h : parseExpDigits sg u orig = (e, []))
    (horig : orig ≠ []) (hc : c.isDigit = false) :
    parseExpDigits sg (u ++ c :: t) (orig ++ c :: t) = (e, c :: t) := by
  unfold parseExpDigits at h ⊢
  split_ifs at h with hg
  · obtain ⟨-, h2⟩ := Prod.mk.injEq .. ▸ h
    exact absurd h2 horig
  · obtain ⟨hv, hd2⟩ := Prod.mk.injEq .. ▸ h
    rw [takeDigits_append_full u c t hd2 hc]
    rw [if_neg hg]
    exact Prod.ext hv rfl

/-- A fully-consumed exponent tail followed by a blocking character
parses to the same exponent with the new character unconsumed. -/
lemma parseExpTail_append_full (rr orig : List Char) (e : ℤ) (c : Char)
    (t : List Char) (h : parseExpTail rr orig = (e, []))
    (horig : orig ≠ []) (hc : c.isDigit = false) :
    parseExpTail (rr ++ c :: t) (orig ++ c :: t) = (e, c :: t) := by
  unfold parseExpTail at h ⊢
  by_cases h1 : rr.head? = some ('+')
  · obtain ⟨rr2, rfl⟩ : ∃ rr2, rr = '+' :: rr2 := by
      cases rr with
      | nil => simp at h1
      | cons a b =>
        simp only [List.head?_cons, Option.some.injEq] at h1
        exact ⟨b, by rw [h1]⟩
    rw [if_pos h1] at h
    simp only [List.cons_append, List.head?_cons, List.tail_cons] at h ⊢
    simp only [if_true]
    exact parseExpDigits_append_full 1 rr2 orig e c t h horig hc
  · by_cases h2 : rr.head? = some ('-')
    · obtain ⟨rr2, rfl⟩ : ∃ rr2, rr = '-' :: rr2 := by
        cases rr with
        | nil => simp at h2
        | cons a b =>
          simp only [List.head?_cons, Option.some.injEq] at h2
          exact ⟨b, by rw [h2]⟩
      rw [if_neg h1, if_pos h2] at h
      simp only [List.cons_append, List.head?_cons, List.tail_cons] at h ⊢
      simp only [if_true]
      exact parseExpDigits_append_full (-1) rr2 orig e c t h horig hc
    · rw [if_neg h1, if_neg h2] at h
      -- the digit run is non-empty, so `rr` is non-empty and keeps its head
      have hrrne : rr ≠ [] := by
        rintro rfl
        rw [show parseExpDigits 1 [] orig = (0, orig) from rfl] at h
        obtain ⟨-, h3⟩ := Prod.mk.injEq .. ▸ h
        exact absurd h3 horig
      obtain ⟨y, rr3, rfl⟩ := List.exists_cons_of_ne_nil hrrne
      have h1b : ¬ (((y :: rr3) ++ c :: t).head? = some ('+')) := by
        simpa using h1
      have h2b : ¬ (((y :: rr3) ++ c :: t).head? = some ('-')) := by
        simpa using h2
      rw [if_neg h1b, if_neg h2b]
      exact parseExpDigits_append_full 1 (y :: rr3) orig e c t h horig hc

/-- A fully-consumed exponent part followed by a blocking character
parses to the same exponent with the new character unconsumed. -/
lemma parseExp_append_full (l : List Char) (e : ℤ) (c : Char)
    (t : List Char) (h : parseExp l = (e, []))
    (hc : c.isDigit = false) (he : c ≠ 'e') (hE : c ≠ 'E') :
    parseExp (l ++ c :: t) = (e, c :: t) := by
  cases l with
  | nil =>
    rw [parseExp_nil] at h
    obtain ⟨rfl, -⟩ :=
      (Prod.mk.injEq .. ▸ h : (0 : ℤ) = e ∧ ([] : List Char) = [])
    simpa using parseExp_not_e c t he hE
  | cons y l2 =>
    by_cases hy : y = 'e' ∨ y = 'E'
    · have hcond : (y :: l2).head? = some 'e' ∨ (y :: l2).head? = some 'E' := by
        rcases hy with rfl | rfl <;> simp
      rw [parseExp, if_pos hcond] at h
      simp only [List.tail_cons] at h
      have hcond2 : ((y :: l2) ++ c :: t).head? = some 'e'
          ∨ ((y :: l2) ++ c :: t).head? = some 'E' := by
        rcases hy with rfl | rfl <;> simp
      rw [parseExp, if_pos hcond2]
      have hstep := parseExpTail_append_full l2 (y :: l2) e c t h (by simp) hc
      simpa using hstep
    · push_neg at hy
      rw [parseExp_not_e y l2 hy.1 hy.2] at h
      obtain ⟨-, h3⟩ := Prod.mk.injEq .. ▸ h
      cases h3

/-- A fully-consumed sign-stripped number followed by a blocking
character parses to the same value with the character unconsumed. -/
lemma parseAfterSign_append (body : List Char) (sg : ℤ) (q : ℚ) (c : Char)
    (t : List Char) (hp : parseAfterSign sg body = some (q, []))
    (hc : c.isDigit = false) (hdot : c ≠ '.') (he : c ≠ 'e')
    (hE : c ≠ 'E') :
    parseAfterSign sg (body ++ c :: t) = some (q, c :: t) := by
  unfold parseAfterSign at hp ⊢
  cases hm : parseMantissa body with
  | none => rw [hm] at hp; cases hp
  | some mdr =>
    obtain ⟨md, r1⟩ := mdr
    rw [hm] at hp
    dsimp only at hp
    cases r1 with
    | nil =>
      rw [parseMantissa_append_full body md c t hm hc hdot]
      dsimp only
      rw [parseExp_nil] at hp
      rw [parseExp_not_e c t he hE]
      simpa using hp
    | cons x rr =>
      rcases hE2 : parseExp (x :: rr) with ⟨e, r2⟩
      rw [hE2] at hp
      simp only [Option.some.injEq, Prod.mk.injEq] at hp
      obtain ⟨hval, hr2⟩ := hp
      rw [parseMantissa_append_stop body (c :: t) md x rr hm]
      dsimp only
      have hexp := parseExp_append_full (x :: rr) e c t
        (by rw [hE2, hr2]) hc he hE
      simp only [List.cons_append] at hexp
      rw [hexp]
      simp only [Option.some.injEq, Prod.mk.injEq]
      exact ⟨hval, trivial⟩

/-- The empty string is not a number. -/
lemma parseNum_nil : parseNum [] = none := rfl

/-- A fully-consumed number followed by a blocking character parses to
the same value with the character unconsumed. -/
lemma parseNum_append (p : List Char) (q : ℚ) (c : Char) (t : List Char)
    (hp : parseNum p = some (q, []))
    (hc : c.isDigit = false) (hdot : c ≠ '.') (he : c ≠ 'e')
    (hE : c ≠ 'E') :
    parseNum (p ++ c :: t) = some (q, c :: t) := by
  have hne : p ≠ [] := by
    rintro rfl
    rw [parseNum_nil] at hp
    cases hp
  obtain ⟨x, p2, rfl⟩ := List.exists_cons_of_ne_nil hne
  unfold parseNum at hp ⊢
  simp only [List.cons_append, List.head?_cons, List.tail_cons] at hp ⊢
  by_cases h1 : x = '+'
  · subst h1
    rw [if_pos rfl] at hp ⊢
    exact parseAfterSign_append p2 1 q c t hp hc hdot he hE
  · by_cases h2 : x = '-'
    · subst h2
      rw [if_neg (by decide), if_pos rfl] at hp ⊢
      exact parseAfterSign_append p2 (-1) q c t hp hc hdot he hE
    · rw [if_neg (by simp [h1]), if_neg (by simp [h2])] at hp ⊢
      exact parseAfterSign_append (x :: p2) 1 q c t hp hc hdot he hE

/-- A string whose first character is unusable for a number (not a sign,
a dot or a digit) is not a number. -/
lemma parseNum_bad_head (x : Char) (p2 : List Char) (h1 : x ≠ '+')
    (h2 : x ≠ '-') (h3 : x ≠ '.') (h4 : x.isDigit = false) :
    parseNum (x :: p2) = none := by
  unfold parseNum
  simp only [List.head?_cons, List.tail_cons]
  rw [if_neg (by simp [h1]), if_neg (by simp [h2])]
  unfold parseAfterSign
  have hm : parseMantissa (x :: p2) = none := by
    unfold parseMantissa
    have htd : takeDigits (x :: p2) = ([], x :: p2) := by
      unfold takeDigits
      rw [h4]
      simp
    rw [htd]
    rw [if_neg (by simp [h3]), if_pos rfl]
  rw [hm]

/-- A parsed string starts with a non-whitespace character. -/
lemma parseNum_head_not_ws (x : Char) (p2 : List Char) (v : ℚ × List Char)
    (hp : parseNum (x :: p2) = some v) : x.isWhitespace = false := by
  by_contra hcon
  rw [Bool.not_eq_false] at hcon
  have hx : ((x = ' ' ∨ x = '\t') ∨ x = '\r') ∨ x = '\n' := by
    simpa [Char.isWhitespace] using hcon
  have hnone : parseNum (x :: p2) = none := by
    rcases hx with ((rfl | rfl) | rfl) | rfl <;>
      exact parseNum_bad_head _ p2 (by decide) (by decide) (by decide)
        (by decide)
  rw [hnone] at hp
  cases hp

/-- C10: an input whose leading characters form a complete positive
number, followed by a character that extends neither the mantissa nor an
exponent (and then anything), is accepted by the manual rate setter: the
rate becomes the value of the numeric prefix instead of the input being
rejected as non-numeric. -/
theorem C10_numeric_prefix_accepted (p t : List Char) (q : ℚ) (c : Char)
    (r : Option ℚ)
    (hp : parseNum p = some (q, []))
    (hq : 0 < q)
    (hc : c.isDigit = false) (hdot : c ≠ '.') (he : c ≠ 'e')
    (hE : c ≠ 'E') :
    parseFloat (String.mk (p ++ c :: t)) = some q
    ∧ updateBtcPriceFromInput (String.mk (p ++ c :: t)) r = (some q, true) := by
  have hne : p ≠ [] := by
    rintro rfl
    rw [parseNum_nil] at hp
    cases hp
  obtain ⟨x, p2, rfl⟩ := List.exists_cons_of_ne_nil hne
  have hws : x.isWhitespace = false := parseNum_head_not_ws x p2 _ hp
  have hPF : parseFloat (String.mk ((x :: p2) ++ c :: t)) = some q := by
    show (parseNum (((x :: p2) ++ c :: t).dropWhile Char.isWhitespace)).map
      Prod.fst = some q
    rw [List.cons_append, List.dropWhile_cons, if_neg (by simp [hws])]
    rw [← List.cons_append]
    rw [parseNum_append (x :: p2) q c t hp hc hdot he hE]
    rfl
  refine ⟨hPF, ?_⟩
  unfold updateBtcPriceFromInput parseFloat at hPF ⊢
  rw [hPF]
  simp [hq]

/-- C10 witness: "45abc" is accepted and sets the rate to 45. -/
theorem C10_numeric_prefix_accepted_witness :
    parseFloat "45abc" = some 45
    ∧ updateBtcPriceFromInput "45abc" (some 7) = (some 45, true) := by
  have h := C10_numeric_prefix_accepted ['4', '5'] ['b', 'c'] 45 'a' (some 7)
    (by decide) (by decide) (by decide) (by decide) (by decide) (by decide)
  have hs : String.mk (['4', '5'] ++ 'a' :: ['b', 'c']) = "45abc" := rfl
  rw [hs] at h
  exact h
